import Mathlib

/-!
Verification of the fork / organizer core of the libbitcoin-blockchain
repository against its natural-language specification.

The development is a shallow embedding of the C++ sources:
  - src/include/bitcoin/blockchain/validation/fork.hpp (class fork, both the
    declaration and the inline implementation file appended to it), and
  - src/unnamed/part_000 (organizer.cpp).

Machine integers (size_t) are modelled as Nat together with the libbitcoin
checked helpers safe_add / safe_subtract, which throw on overflow/underflow;
a thrown exception is modelled as the value none of an Option result.
Unchecked size_t additions reduce modulo 2^64 and uint256_t additions reduce
modulo 2^256, exactly where the source performs them.
-/

/-- The 256-bit digest of all zero bytes, written as a natural number. -/
def null_hash : Nat := 0

/-- Largest uint32 value, point::null_index in libbitcoin. -/
def max_uint32 : Nat := 4294967295

/-- Largest size_t value on the 64-bit targets the library builds for. -/
def max_size_t : Nat := 18446744073709551615

/-- Modulus of size_t arithmetic. -/
def two64 : Nat := 18446744073709551616

/-- Modulus of uint256_t arithmetic. -/
def two256 : Nat := 2 ^ 256

/-- Sentinel value chain::output::not_found (max_uint64). -/
def output_not_found : Nat := 18446744073709551615

/-- Sentinel output_point::validation_type::not_specified (max_size_t). -/
def not_specified : Nat := 18446744073709551615

/-- Checked addition, libbitcoin safe_add: none models the thrown
overflow_exception when the mathematical sum exceeds max_size_t. -/
def safe_add (a b : Nat) : Option Nat :=
  if a + b ≤ max_size_t then some (a + b) else none

/-- Checked subtraction, libbitcoin safe_subtract: none models the thrown
underflow_exception when the subtrahend exceeds the minuend. -/
def safe_subtract (a b : Nat) : Option Nat :=
  if b ≤ a then some (a - b) else none

/-- Block header fields consumed by the fork code: previous block hash,
bits, version and timestamp. -/
structure Header where
  previous_block_hash : Nat
  bits : Nat
  version : Nat
  timestamp : Nat
deriving DecidableEq

/-- Modelled from the spec: chain::output is external to this repository.
An output is represented by its value; the default-constructed output
carries the not_found sentinel and is the invalid output used to reset the
prevout cache. Scripts are not modelled, so validity is the value test. -/
structure Output where
  value : Nat
deriving DecidableEq

/-- Validity of an output: its value differs from the not_found sentinel. -/
def Output.is_valid (o : Output) : Bool :=
  decide (o.value ≠ output_not_found)

/-- The default-constructed (invalid) output, chain::output in the source. -/
def invalid_output : Output := ⟨output_not_found⟩

/-- An outpoint (tx_hash, output_index) referencing a transaction output. -/
structure OutPoint where
  hash : Nat
  index : Nat
deriving DecidableEq

/-- Modelled from the spec: chain::point::is_null is external to this
repository; a null point has the null_index (max_uint32) and null_hash. -/
def OutPoint.is_null (p : OutPoint) : Bool :=
  decide (p.index = max_uint32) && decide (p.hash = null_hash)

/-- A transaction input, reduced to the previous output it spends. -/
structure Input where
  previous_output : OutPoint
deriving DecidableEq

/-- A transaction: its digest, inputs and outputs. The digest is modelled
as an uninterpreted field since the fork code only compares it. -/
structure Transaction where
  hash : Nat
  inputs : List Input
  outputs : List Output
deriving DecidableEq

/-- A block: header, content digest and transaction list. The digest is an
uninterpreted field because the fork code only compares block hashes. -/
structure Block where
  header : Header
  hash : Nat
  transactions : List Transaction
deriving DecidableEq

/-- Modelled from the spec: Bitcoin compact-bits decoding, external to this
repository (libbitcoin chain/compact). Exponent is the top byte, the sign
bit and a target of 256 bits or more decode to a zero target. -/
def compact_target (bits : Nat) : Nat :=
  let exponent := bits / 16777216
  let negative := (bits / 8388608) % 2 = 1
  let mantissa := bits % 8388608
  let target :=
    if exponent ≤ 3 then mantissa / 2 ^ (8 * (3 - exponent))
    else mantissa * 2 ^ (8 * (exponent - 3))
  if negative ∨ two256 ≤ target then 0 else target

/-- Modelled from the spec: chain::block::difficulty, the claimed work
implied by the header bits, computed from the decoded target over
uint256_t arithmetic; a zero target yields zero work. -/
def header_work (bits : Nat) : Nat :=
  let target := compact_target bits
  if target = 0 then 0 else (two256 - 1 - target) / (target + 1) + 1

/-- The claimed work of a block, a function of its header bits only. -/
def Block.difficulty (b : Block) : Nat :=
  header_work b.header.bits

/-- The fork: a parent (fork point) height and the ordered block list,
front at index 0 (class fork, fields height_ and blocks_). -/
structure Fork where
  height_ : Nat
  blocks_ : List Block
deriving DecidableEq

namespace Fork

/-- fork::empty. -/
def empty (f : Fork) : Bool := f.blocks_.isEmpty

/-- fork::size. -/
def size (f : Fork) : Nat := f.blocks_.length

/-- fork::height. -/
def height (f : Fork) : Nat := f.height_

/-- fork::hash, the fork-point hash: previous_block_hash of the front
block, or null_hash when the fork is empty. -/
def hash (f : Fork) : Nat :=
  match f.blocks_ with
  | [] => null_hash
  | b :: _ => b.header.previous_block_hash

/-- fork::top, the back of the block list when nonempty. -/
def top (f : Fork) : Option Block := f.blocks_.getLast?

/-- fork::block_at: the block at the index, none when out of range
(the source returns nullptr). -/
def block_at (f : Fork) (index : Nat) : Option Block := f.blocks_[index]?

/-- fork::index_of: checked height - height_ - 1; none models the
underflow exception thrown by safe_subtract. -/
def index_of (f : Fork) (height : Nat) : Option Nat :=
  (safe_subtract height f.height_).bind (fun d => safe_subtract d 1)

/-- fork::height_at: checked height_ + index + 1; none models the
overflow exception thrown by safe_add. -/
def height_at (f : Fork) (index : Nat) : Option Nat :=
  (safe_add f.height_ index).bind (fun s => safe_add s 1)

/-- The linkage test of fork::push_front: the front block's
previous_block_hash equals the new block's hash (false on empty). -/
def linked (f : Fork) (b : Block) : Bool :=
  match f.blocks_ with
  | [] => false
  | front :: _ => decide (front.header.previous_block_hash = b.hash)

/-- fork::push_front: prepend when empty or linked, returning success and
the updated fork; otherwise fail and leave the fork unchanged. -/
def push_front (f : Fork) (b : Block) : Bool × Fork :=
  if f.empty || f.linked b then (true, { f with blocks_ := b :: f.blocks_ })
  else (false, f)

/-- fork::difficulty: fold the claimed work of each block into a running
uint256_t total (additions reduce modulo 2^256). -/
def difficulty (f : Fork) : Nat :=
  f.blocks_.foldl (fun total b => (total + b.difficulty) % two256) 0

/-- fork::get_bits. The outer Option models exception propagation out of
index_of (none = the checked subtraction threw); the inner Option models
the boolean result (none = returned false, out parameter unwritten). -/
def get_bits (f : Fork) (height : Nat) : Option (Option Nat) :=
  if height ≤ f.height_ then some none
  else
    match f.index_of height with
    | none => none
    | some i =>
      match f.block_at i with
      | none => some none
      | some b => some (some b.header.bits)

/-- fork::get_version, with the same two-layer Option reading as get_bits. -/
def get_version (f : Fork) (height : Nat) : Option (Option Nat) :=
  if height ≤ f.height_ then some none
  else
    match f.index_of height with
    | none => none
    | some i =>
      match f.block_at i with
      | none => some none
      | some b => some (some b.header.version)

/-- fork::get_timestamp, with the same two-layer Option reading as
get_bits. -/
def get_timestamp (f : Fork) (height : Nat) : Option (Option Nat) :=
  if height ≤ f.height_ then some none
  else
    match f.index_of height with
    | none => none
    | some i =>
      match f.block_at i with
      | none => some none
      | some b => some (some b.header.timestamp)

/-- fork::get_block_hash, with the same two-layer Option reading as
get_bits. -/
def get_block_hash (f : Fork) (height : Nat) : Option (Option Nat) :=
  if height ≤ f.height_ then some none
  else
    match f.index_of height with
    | none => none
    | some i =>
      match f.block_at i with
      | none => some none
      | some b => some (some b.hash)

end Fork

/-- The number of inputs of a transaction whose previous_output equals the
outpoint (the count_if of the populate_spent inner lambda). -/
def count_point (op : OutPoint) (tx : Transaction) : Nat :=
  tx.inputs.countP (fun i => decide (i.previous_output = op))

/-- fork::populate_spent, returning the (spent, confirmed) pair it writes
into the outpoint validation slots. The outer accumulate seeds the inner
accumulate with the running total and adds that total once more, exactly
as the source does; size_t additions reduce modulo 2^64. -/
def populate_spent (f : Fork) (op : OutPoint) : Bool × Bool :=
  let spent := f.blocks_.foldl
    (fun total b =>
      (total + b.transactions.foldl
        (fun sum tx => (sum + count_point op tx) % two64) total) % two64) 0
  let s := decide (1 < spent)
  (s, s)

/-- Stated from the claim's words, for comparison with populate_spent: the
number of inputs, summed across all transactions of all fork blocks, whose
previous_output equals the outpoint. -/
def spent_count_spec (f : Fork) (op : OutPoint) : Nat :=
  (f.blocks_.map (fun b => (b.transactions.map (count_point op)).sum)).sum

/-- The match test of the populate_prevout scan: the transaction digest
equals the outpoint hash and the outpoint index is in range of the
transaction's outputs. -/
def tx_match (op : OutPoint) (tx : Transaction) : Bool :=
  decide (tx.hash = op.hash) && decide (op.index < tx.outputs.length)

/-- The inner loop of populate_prevout: scan transactions in order from
the given position, returning the first match with its position. -/
def findTx (op : OutPoint) : List Transaction → Nat → Option (Nat × Transaction)
  | [], _ => none
  | tx :: rest, pos =>
    if tx_match op tx then some (pos, tx) else findTx op rest (pos + 1)

/-- The outer loop of populate_prevout: scan block indexes k-1, k-2, ..., 0
(the source's reverse BIP30 order), returning the first block index with a
matching transaction, together with that transaction and its position.
The get? fallback branch is unreachable when k is at most the list length,
mirroring the guarded block_at dereference of the source. -/
def scanDown (op : OutPoint) (blocks : List Block) : Nat → Option (Nat × Nat × Transaction)
  | 0 => none
  | k + 1 =>
    match blocks[k]? with
    | none => scanDown op blocks k
    | some b =>
      match findTx op b.transactions 0 with
      | some (pos, tx) => some (k, pos, tx)
      | none => scanDown op blocks k

/-- The get_output lambda of fork::populate_prevout: reverse search of the
whole fork for the outpoint. -/
def find_prevout (f : Fork) (op : OutPoint) : Option (Nat × Nat × Transaction) :=
  scanDown op f.blocks_ f.size

/-- The outpoint validation slots written by populate_prevout: the cached
output and the height (not_specified sentinel when unset). -/
structure PrevoutValidation where
  cache : Output
  height : Nat
deriving DecidableEq

/-- fork::populate_prevout, returning the validation slots it writes; the
outer none models the overflow exception propagating out of height_at.
Cache and height start invalid / not_specified; a null outpoint returns
them unchanged; on a found match the block height is computed, then an
invalid matched output leaves the slots at their initial values, and
otherwise the cache is the matched output and the height is set iff the
matching transaction is at position 0 (coinbase). -/
def populate_prevout (f : Fork) (op : OutPoint) : Option PrevoutValidation :=
  if op.is_null then some ⟨invalid_output, not_specified⟩
  else
    match find_prevout f op with
    | none => some ⟨invalid_output, not_specified⟩
    | some (i, pos, tx) =>
      match f.height_at i with
      | none => none
      | some hgt =>
        let out := tx.outputs[op.index]?.getD invalid_output
        if out.is_valid then
          some ⟨out, if pos = 0 then hgt else not_specified⟩
        else some ⟨invalid_output, not_specified⟩

/-- The error codes the organizer pipeline manipulates; other carries any
further validator or store code by number. -/
inductive Code where
  | success
  | service_stopped
  | duplicate_block
  | orphan_block
  | insufficient_work
  | operation_failed
  | other (n : Nat)
deriving DecidableEq

/-- The organizer fields the organize pipeline reads: the stopped flag and
the flush_reorganizations policy (organizer.cpp constructor and members). -/
structure OrganizerState where
  stopped : Bool
  flush_reorganizations : Bool

/-- The organizer constructor: stopped_ is initialized to true. -/
def OrganizerState.init (flush : Bool) : OrganizerState :=
  { stopped := true, flush_reorganizations := flush }

/-- The fast_chain operations the organize pipeline consumes, as abstract
query functions: get_block_exists by block hash; get_height by hash (none
when the hash is unknown); get_fork_difficulty taking maximum and
first_height (none when the query fails). -/
structure FastChain where
  get_block_exists : Nat → Bool
  get_height : Nat → Option Nat
  get_fork_difficulty : Nat → Nat → Option Nat

/-- Where organizer::organize terminates or hands off: each early reply is
a terminal constructor, and acceptStarted carries the fork (with its
parent height set) passed to validator accept. heightOverflow models the
exception thrown by the checked addition inside set_fork_height. -/
inductive OrganizeOutcome where
  | serviceStopped
  | checkFailed (ec : Code)
  | duplicateBlock
  | orphanBlock
  | heightOverflow
  | acceptStarted (fork : Fork)

/-- organizer::organize together with organizer::set_fork_height: check the
stopped flag, run the context-free check (its code is the check_ec
parameter, the validator being external), fetch the path (the path
parameter, the block pool being external), reject an empty path or a block
the store already has as duplicate_block, anchor the fork at the store
height of its fork-point hash (orphan_block when unknown, with the checked
height + size overflow guard), and hand the fork to validator accept. -/
def organize (st : OrganizerState) (check_ec : Code) (chain : FastChain)
    (path : Fork) (block : Block) : OrganizeOutcome :=
  if st.stopped then .serviceStopped
  else if check_ec ≠ Code.success then .checkFailed check_ec
  else if path.empty || chain.get_block_exists block.hash then .duplicateBlock
  else
    match chain.get_height path.hash with
    | none => .orphanBlock
    | some h =>
      match safe_add h path.size with
      | none => .heightOverflow
      | some _ => .acceptStarted { path with height_ := h }

/-- Where organizer::handle_accept terminates or hands off. -/
inductive AcceptOutcome where
  | serviceStopped
  | errReply (ec : Code)
  | connectStarted (fork : Fork)

/-- organizer::handle_accept: recheck the stopped flag, propagate an accept
error, otherwise hand the fork to validator connect. -/
def handle_accept (st : OrganizerState) (ec : Code) (fork : Fork) : AcceptOutcome :=
  if st.stopped then .serviceStopped
  else if ec ≠ Code.success then .errReply ec
  else .connectStarted fork

/-- Where organizer::handle_connect terminates or hands off: the
insufficientWork constructor carries the fork top handed to
block_pool_.add before replying insufficient_work, and reorganizeStarted
is the only constructor that invokes fast_chain_.reorganize. -/
inductive ConnectOutcome where
  | serviceStopped
  | errReply (ec : Code)
  | operationFailed
  | insufficientWork (top : Option Block)
  | reorganizeStarted (fork : Fork)

/-- organizer::handle_connect: recheck the stopped flag, propagate a
connect error, query the store for the competing segment's work above the
fork point (capped at the fork's difficulty), fail as operation_failed
when the query fails, stop with insufficient_work when the fork difficulty
does not strictly exceed the threshold (adding the fork top to the block
pool), and otherwise start the store reorganization. The first_height
size_t addition reduces modulo 2^64 as in the source. -/
def handle_connect (st : OrganizerState) (ec : Code) (chain : FastChain)
    (fork : Fork) : ConnectOutcome :=
  if st.stopped then .serviceStopped
  else if ec ≠ Code.success then .errReply ec
  else
    match chain.get_fork_difficulty fork.difficulty ((fork.height_ + 1) % two64) with
    | none => .operationFailed
    | some threshold =>
      if fork.difficulty ≤ threshold then .insufficientWork fork.top
      else .reorganizeStarted fork

/-- A block with all-zero header fields and digest 100, used as a concrete
test vector. -/
def blkA : Block := ⟨⟨0, 0, 0, 0⟩, 100, []⟩

/-- A block whose digest 55 does not match blkA's previous-block hash. -/
def blkC : Block := ⟨⟨55, 0, 0, 0⟩, 55, []⟩

/-- The empty fork with parent height 0 (a fresh fork object). -/
def fork0 : Fork := ⟨0, []⟩

/-- A one-block fork at parent height 0. -/
def forkOne : Fork := ⟨0, [blkA]⟩

/-- A one-block fork at parent height 42. -/
def forkW6 : Fork := ⟨42, [blkA]⟩

/-- A one-block fork whose parent height is the largest size_t value, so
that the checked addition of height_at overflows at index 0. -/
def forkC6 : Fork := ⟨max_size_t, [blkA]⟩

/-- The outpoint spent once inside forkC1. -/
def opC1 : OutPoint := ⟨77, 0⟩

/-- A transaction with a single input spending opC1. -/
def txSpend : Transaction := ⟨5, [⟨opC1⟩], []⟩

/-- A transaction spending an unrelated outpoint. -/
def txOther : Transaction := ⟨6, [⟨⟨55, 1⟩⟩], []⟩

/-- First block of forkC1, containing the only spend of opC1. -/
def blkC1a : Block := ⟨⟨0, 0, 0, 0⟩, 101, [txSpend]⟩

/-- Second block of forkC1, spending nothing equal to opC1. -/
def blkC1b : Block := ⟨⟨101, 0, 0, 0⟩, 102, [txOther]⟩

/-- A two-block fork in which opC1 is spent exactly once, in the front
(non-top) block. -/
def forkC1 : Fork := ⟨0, [blkC1a, blkC1b]⟩

/-- A coinbase transaction whose only output is the invalid output. -/
def txCb : Transaction := ⟨7, [⟨⟨null_hash, max_uint32⟩⟩], [⟨output_not_found⟩]⟩

/-- The block holding txCb at position 0. -/
def blkC4 : Block := ⟨⟨0, 0, 0, 0⟩, 103, [txCb]⟩

/-- A one-block fork at parent height 0 whose only transaction is txCb. -/
def forkC4 : Fork := ⟨0, [blkC4]⟩

/-- A non-null outpoint referencing output 0 of txCb. -/
def opC4 : OutPoint := ⟨7, 0⟩

/-- A coinbase transaction with one valid output of value 5. -/
def txCbV : Transaction := ⟨8, [⟨⟨null_hash, max_uint32⟩⟩], [⟨5⟩]⟩

/-- The block holding txCbV at position 0. -/
def blkW4 : Block := ⟨⟨0, 0, 0, 0⟩, 104, [txCbV]⟩

/-- A one-block fork at parent height 0 whose only transaction is txCbV. -/
def forkW4 : Fork := ⟨0, [blkW4]⟩

/-- A non-null outpoint referencing output 0 of txCbV. -/
def opW4 : OutPoint := ⟨8, 0⟩

/-- A fast_chain on which every query fails or is empty. -/
def chain0 : FastChain := ⟨fun _ => false, fun _ => none, fun _ _ => none⟩

/-- A fast_chain whose get_fork_difficulty returns exactly the maximum it
was handed, so the competing segment's work equals the fork's. -/
def chain2 : FastChain := ⟨fun _ => false, fun _ => some 0, fun maximum _ => some maximum⟩


theorem index_of_eq (f : Fork) (h : Nat) (hh : f.height_ < h) :
    f.index_of h = some (h - f.height_ - 1) := by
  unfold Fork.index_of safe_subtract
  rw [if_pos (Nat.le_of_lt hh), Option.some_bind,
    if_pos (by omega : 1 ≤ h - f.height_)]

theorem get_bits_isSome (f : Fork) (h : Nat) : (f.get_bits h).isSome = true := by
  unfold Fork.get_bits
  by_cases hc : h ≤ f.height_
  · rw [if_pos hc]; rfl
  · rw [if_neg hc, index_of_eq f h (by omega)]
    cases hb : f.block_at (h - f.height_ - 1) <;> simp [hb]

theorem get_version_isSome (f : Fork) (h : Nat) : (f.get_version h).isSome = true := by
  unfold Fork.get_version
  by_cases hc : h ≤ f.height_
  · rw [if_pos hc]; rfl
  · rw [if_neg hc, index_of_eq f h (by omega)]
    cases hb : f.block_at (h - f.height_ - 1) <;> simp [hb]

theorem get_timestamp_isSome (f : Fork) (h : Nat) : (f.get_timestamp h).isSome = true := by
  unfold Fork.get_timestamp
  by_cases hc : h ≤ f.height_
  · rw [if_pos hc]; rfl
  · rw [if_neg hc, index_of_eq f h (by omega)]
    cases hb : f.block_at (h - f.height_ - 1) <;> simp [hb]

theorem get_block_hash_isSome (f : Fork) (h : Nat) : (f.get_block_hash h).isSome = true := by
  unfold Fork.get_block_hash
  by_cases hc : h ≤ f.height_
  · rw [if_pos hc]; rfl
  · rw [if_neg hc, index_of_eq f h (by omega)]
    cases hb : f.block_at (h - f.height_ - 1) <;> simp [hb]

theorem difficulty_foldl (l : List Block) : ∀ acc : Nat,
    l.foldl (fun t b => (t + b.difficulty) % two256) (acc % two256)
      = (acc + (l.map Block.difficulty).sum) % two256 := by
  induction l with
  | nil => intro acc; simp
  | cons b tl ih =>
    intro acc
    simp only [List.foldl_cons, List.map_cons, List.sum_cons]
    rw [Nat.mod_add_mod, ih (acc + b.difficulty)]
    congr 1
    omega

theorem findTx_none (op : OutPoint) :
    ∀ (txs : List Transaction), (∀ tx ∈ txs, tx_match op tx = false) →
      ∀ s, findTx op txs s = none := by
  intro txs
  induction txs with
  | nil => intro _ _; rfl
  | cons t rest ih =>
    intro hall s
    have ht : tx_match op t = false := hall t (by simp)
    simp only [findTx, ht, Bool.false_eq_true, if_false]
    exact ih (fun tx hx => hall tx (by simp [hx])) (s + 1)

theorem findTx_found (op : OutPoint) :
    ∀ (txs : List Transaction) (k : Nat) (tx : Transaction),
      txs[k]? = some tx → tx_match op tx = true →
      (∀ q tq, q < k → txs[q]? = some tq → tx_match op tq = false) →
      ∀ s, findTx op txs s = some (s + k, tx) := by
  intro txs
  induction txs with
  | nil => intro k tx hget; simp at hget
  | cons t rest ih =>
    intro k tx hget hmatch hfirst s
    cases k with
    | zero =>
      simp only [List.getElem?_cons_zero, Option.some.injEq] at hget
      subst hget
      simp [findTx, hmatch]
    | succ k0 =>
      have ht : tx_match op t = false :=
        hfirst 0 t (Nat.succ_pos _) (by simp)
      simp only [findTx, ht, Bool.false_eq_true, if_false]
      have hrec := ih k0 tx (by simpa using hget) hmatch
        (fun q tq hq hg => hfirst (q + 1) tq (by omega) (by simpa using hg)) (s + 1)
      have harg : s + 1 + k0 = s + (k0 + 1) := by omega
      rw [hrec, harg]

theorem scanDown_none (op : OutPoint) (blocks : List Block) :
    ∀ n, (∀ j bj, j < n → blocks[j]? = some bj →
        bj.transactions.any (tx_match op) = false) →
      scanDown op blocks n = none := by
  intro n
  induction n with
  | zero => intro _; rfl
  | succ m ih =>
    intro hall
    have hrec := ih (fun j bj hj hg => hall j bj (by omega) hg)
    cases hg : blocks[m]? with
    | none => simp [scanDown, hg, hrec]
    | some b =>
      have hb : b.transactions.any (tx_match op) = false :=
        hall m b (by omega) hg
      have hfind : findTx op b.transactions 0 = none := by
        apply findTx_none
        intro tx hx
        exact Bool.eq_false_iff.mpr (List.any_eq_false.mp hb tx hx)
      simp [scanDown, hg, hfind, hrec]

theorem scanDown_found (op : OutPoint) (blocks : List Block) :
    ∀ n i b k tx, i < n → blocks[i]? = some b →
      b.transactions[k]? = some tx → tx_match op tx = true →
      (∀ q tq, q < k → b.transactions[q]? = some tq → tx_match op tq = false) →
      (∀ j bj, i < j → j < n → blocks[j]? = some bj →
        bj.transactions.any (tx_match op) = false) →
      scanDown op blocks n = some (i, k, tx) := by
  intro n
  induction n with
  | zero => intro i b k tx hi; exact absurd hi (Nat.not_lt_zero i)
  | succ m ih =>
    intro i b k tx hi hgi hgk hm hfirst hhigher
    by_cases him : i = m
    · subst him
      have hf : findTx op b.transactions 0 = some (0 + k, tx) :=
        findTx_found op b.transactions k tx hgk hm hfirst 0
      simp [scanDown, hgi, hf]
    · have him2 : i < m := by omega
      cases hg : blocks[m]? with
      | none =>
        simp only [scanDown, hg]
        exact ih i b k tx him2 hgi hgk hm hfirst
          (fun j bj h1 h2 hb => hhigher j bj h1 (by omega) hb)
      | some bm =>
        have hbm : bm.transactions.any (tx_match op) = false :=
          hhigher m bm (by omega) (by omega) hg
        have hfind : findTx op bm.transactions 0 = none :=
          findTx_none op bm.transactions
            (fun tx2 hx => Bool.eq_false_iff.mpr (List.any_eq_false.mp hbm tx2 hx)) 0
        simp only [scanDown, hg, hfind]
        exact ih i b k tx him2 hgi hgk hm hfirst
          (fun j bj h1 h2 hb => hhigher j bj h1 (by omega) hb)

/-- C1. The claim states populate_spent sets spent (and confirmed) to true
iff the number of inputs across all fork transactions whose
previous_output equals the outpoint is strictly greater than 1. On forkC1
that count is exactly 1 (the only spend sits in the front block), yet
populate_spent reports spent = confirmed = true: the outer accumulation of
the source seeds the inner accumulate with the running total and then
adds that total again, so counts from earlier blocks are double-counted
per later block (weighted total 2 here). -/
theorem C1_populate_spent_divergence :
    populate_spent forkC1 opC1 = (true, true) ∧
    spent_count_spec forkC1 opC1 = 1 := by
  constructor <;> decide

/-- C9. The organizer constructor initializes stopped to true, organize
replies service_stopped whenever the flag is set, and both later stages
(handle_accept, after accept validation, and handle_connect, after
connect validation) recheck the flag and terminate with service_stopped. -/
theorem C9_stopped_rechecks :
    (∀ fl, (OrganizerState.init fl).stopped = true) ∧
    (∀ fl ec chain path block,
      organize ⟨true, fl⟩ ec chain path block = .serviceStopped) ∧
    (∀ fl ec fork, handle_accept ⟨true, fl⟩ ec fork = .serviceStopped) ∧
    (∀ fl ec chain fork,
      handle_connect ⟨true, fl⟩ ec chain fork = .serviceStopped) :=
  ⟨fun _ => rfl, fun _ _ _ _ _ => rfl, fun _ _ _ => rfl, fun _ _ _ _ => rfl⟩

/-- C8. When the block passes the context-free check and the organizer is
running, an empty path from the block pool or a store hit on the block
hash makes organize terminate with duplicate_block: the duplicateBlock
outcome is terminal, so no anchor lookup (get_height), no validation and
no reorganization happens. -/
theorem C8_duplicate_block (fl : Bool) (chain : FastChain) (path : Fork)
    (block : Block)
    (hdup : path.empty = true ∨ chain.get_block_exists block.hash = true) :
    organize ⟨false, fl⟩ Code.success chain path block = .duplicateBlock := by
  have hcond : (path.empty || chain.get_block_exists block.hash) = true := by
    cases hdup with
    | inl h => simp [h]
    | inr h => simp [h]
  simp [organize, hcond]

/-- Witness for C8 at the empty path. -/
theorem C8_duplicate_block_witness :
    organize ⟨false, false⟩ Code.success chain0 fork0 blkA = .duplicateBlock :=
  C8_duplicate_block false chain0 fork0 blkA (Or.inl rfl)

/-- C2. When the competing segment's cumulative work (the threshold
returned by get_fork_difficulty) is at least the fork's difficulty, the
connect stage terminates with the insufficientWork outcome, which adds
the fork top to the block pool and replies insufficient_work; the
reorganizeStarted constructor, the only one that invokes
fast_chain reorganize, is not produced, so equal work never triggers a
reorganization and the store is not modified. -/
theorem C2_insufficient_work (fl : Bool) (chain : FastChain) (fork : Fork)
    (threshold : Nat)
    (hq : chain.get_fork_difficulty fork.difficulty ((fork.height_ + 1) % two64)
      = some threshold)
    (hle : fork.difficulty ≤ threshold) :
    handle_connect ⟨false, fl⟩ Code.success chain fork
      = .insufficientWork fork.top := by
  simp [handle_connect, hq, hle]

/-- Witness for C2 where the threshold equals the fork's difficulty. -/
theorem C2_insufficient_work_witness :
    handle_connect ⟨false, false⟩ Code.success chain2 forkOne
      = .insufficientWork forkOne.top :=
  C2_insufficient_work false chain2 forkOne forkOne.difficulty rfl
    (Nat.le_refl _)

/-- C7. The fork difficulty is the sum over all fork blocks of each
block's claimed work, reduced modulo 2^256 as uint256_t arithmetic does,
and the empty fork yields 0. -/
theorem C7_difficulty_sum (f : Fork) :
    f.difficulty = (f.blocks_.map Block.difficulty).sum % two256 ∧
    (f.empty = true → f.difficulty = 0) := by
  have base : f.difficulty = (0 + (f.blocks_.map Block.difficulty).sum) % two256 := by
    have hfold := difficulty_foldl f.blocks_ 0
    rw [Nat.zero_mod] at hfold
    exact hfold
  constructor
  · simpa using base
  · intro he
    have hnil : f.blocks_ = [] := by
      simpa [Fork.empty] using he
    simp [Fork.difficulty, hnil]

/-- Witness for C7 at the empty fork. -/
theorem C7_difficulty_sum_witness :
    fork0.difficulty = (fork0.blocks_.map Block.difficulty).sum % two256 ∧
    fork0.difficulty = 0 :=
  ⟨(C7_difficulty_sum fork0).1, (C7_difficulty_sum fork0).2 rfl⟩

/-- C10. The four height-indexed getters never propagate the underflow
exception of the checked subtraction inside index_of: each first rejects
heights at or below the parent height, after which the subtraction cannot
underflow, and an out-of-range index only makes block_at return none, so
the getter returns false instead of faulting. In the model the outer
Option is the exception channel and it is always populated. -/
theorem C10_getters_total : ∀ (f : Fork) (h : Nat),
    (f.get_bits h).isSome = true ∧ (f.get_version h).isSome = true ∧
    (f.get_timestamp h).isSome = true ∧ (f.get_block_hash h).isSome = true :=
  fun f h => ⟨get_bits_isSome f h, get_version_isSome f h,
    get_timestamp_isSome f h, get_block_hash_isSome f h⟩

/-- C3. push_front succeeds exactly when the fork is empty or the new
block's hash equals the front block's previous-block hash; success
prepends the block (leaving the parent height alone), failure is a no-op,
and the size grows by one exactly on success. -/
theorem C3_push_front (f : Fork) (b : Block) :
    ((f.push_front b).1 = true ↔
      (f.empty = true ∨ ∃ front rest, f.blocks_ = front :: rest ∧
        b.hash = front.header.previous_block_hash)) ∧
    ((f.push_front b).1 = true →
      (f.push_front b).2 = { f with blocks_ := b :: f.blocks_ }) ∧
    ((f.push_front b).1 = false → (f.push_front b).2 = f) ∧
    ((f.push_front b).2.size = f.size + 1 ↔ (f.push_front b).1 = true) := by
  obtain ⟨p, bl⟩ := f
  cases bl with
  | nil =>
    have hred : Fork.push_front ⟨p, []⟩ b = (true, ⟨p, [b]⟩) := rfl
    rw [hred]
    refine ⟨⟨fun _ => Or.inl rfl, fun _ => rfl⟩, fun _ => rfl,
      fun hco => by simp at hco, ?_⟩
    simp [Fork.size]
  | cons front rest =>
    by_cases hx : front.header.previous_block_hash = b.hash
    · have hred : Fork.push_front ⟨p, front :: rest⟩ b
          = (true, ⟨p, b :: front :: rest⟩) := by
        simp [Fork.push_front, Fork.linked, hx]
      rw [hred]
      refine ⟨⟨fun _ => Or.inr ⟨front, rest, rfl, hx.symm⟩, fun _ => rfl⟩,
        fun _ => rfl, fun hco => by simp at hco, ?_⟩
      simp [Fork.size]
    · have hred : Fork.push_front ⟨p, front :: rest⟩ b
          = (false, ⟨p, front :: rest⟩) := by
        simp [Fork.push_front, Fork.empty, Fork.linked, hx]
      rw [hred]
      refine ⟨⟨fun hco => by simp at hco, ?_⟩, fun hco => by simp at hco,
        fun _ => rfl, ?_⟩
      · intro hor
        cases hor with
        | inl he => simp [Fork.empty] at he
        | inr hex =>
          obtain ⟨fr, rs, heq, hhash⟩ := hex
          have heq2 : front :: rest = fr :: rs := heq
          injection heq2 with hfr hrs
          subst hfr
          exact absurd hhash.symm hx
      · constructor
        · intro hsz
          simp only [Fork.size] at hsz
          omega
        · intro hco
          simp at hco

/-- Witness for C3: success on the empty fork and no-op on a linkage
failure. -/
theorem C3_push_front_witness :
    (fork0.push_front blkA).2 = { fork0 with blocks_ := blkA :: fork0.blocks_ } ∧
    (forkOne.push_front blkC).2 = forkOne :=
  ⟨(C3_push_front fork0 blkA).2.1 (by decide),
   (C3_push_front forkOne blkC).2.2.1 (by decide)⟩

/-- C5. Each height-indexed getter returns the corresponding header field
(or the block hash) of the fork block at index h - parent - 1 exactly
when h exceeds the parent height and that index is inside the fork;
otherwise it returns false with the out parameter unwritten (the inner
none). -/
theorem C5_height_getters (f : Fork) (h : Nat) :
    (∀ b, f.height_ < h → f.blocks_[h - f.height_ - 1]? = some b →
      f.get_bits h = some (some b.header.bits) ∧
      f.get_version h = some (some b.header.version) ∧
      f.get_timestamp h = some (some b.header.timestamp) ∧
      f.get_block_hash h = some (some b.hash)) ∧
    (¬(f.height_ < h ∧ h - f.height_ - 1 < f.size) →
      f.get_bits h = some none ∧ f.get_version h = some none ∧
      f.get_timestamp h = some none ∧ f.get_block_hash h = some none) := by
  constructor
  · intro b hh hget
    have hba : f.block_at (h - f.height_ - 1) = some b := hget
    refine ⟨?_, ?_, ?_, ?_⟩
    · simp only [Fork.get_bits]
      rw [if_neg (by omega : ¬h ≤ f.height_), index_of_eq f h hh]
      simp [hba]
    · simp only [Fork.get_version]
      rw [if_neg (by omega : ¬h ≤ f.height_), index_of_eq f h hh]
      simp [hba]
    · simp only [Fork.get_timestamp]
      rw [if_neg (by omega : ¬h ≤ f.height_), index_of_eq f h hh]
      simp [hba]
    · simp only [Fork.get_block_hash]
      rw [if_neg (by omega : ¬h ≤ f.height_), index_of_eq f h hh]
      simp [hba]
  · intro hn
    by_cases hc : h ≤ f.height_
    · refine ⟨?_, ?_, ?_, ?_⟩ <;>
        simp [Fork.get_bits, Fork.get_version, Fork.get_timestamp,
          Fork.get_block_hash, hc]
    · have hh : f.height_ < h := by omega
      have hsz : f.size ≤ h - f.height_ - 1 := by
        by_contra hlt
        exact hn ⟨hh, by omega⟩
      have hoob : f.block_at (h - f.height_ - 1) = none := by
        simp only [Fork.block_at]
        exact List.getElem?_eq_none hsz
      refine ⟨?_, ?_, ?_, ?_⟩
      · simp only [Fork.get_bits]
        rw [if_neg (by omega : ¬h ≤ f.height_), index_of_eq f h hh]
        simp [hoob]
      · simp only [Fork.get_version]
        rw [if_neg (by omega : ¬h ≤ f.height_), index_of_eq f h hh]
        simp [hoob]
      · simp only [Fork.get_timestamp]
        rw [if_neg (by omega : ¬h ≤ f.height_), index_of_eq f h hh]
        simp [hoob]
      · simp only [Fork.get_block_hash]
        rw [if_neg (by omega : ¬h ≤ f.height_), index_of_eq f h hh]
        simp [hoob]

/-- Witness for C5 at a one-block fork and height 1. -/
theorem C5_height_getters_witness :
    forkOne.get_bits 1 = some (some 0) ∧
    forkOne.get_version 1 = some (some 0) ∧
    forkOne.get_timestamp 1 = some (some 0) ∧
    forkOne.get_block_hash 1 = some (some 100) :=
  (C5_height_getters forkOne 1).1 blkA (by decide) (by decide)

/-- C6 counterexample. At parent height max_size_t with a valid index 0,
height_at does not return parent + 0 + 1: the checked addition inside
height_at throws (none), because the mathematical value 2^64 does not fit
in size_t. -/
theorem C6_counterexample :
    forkC6.height_at 0 = none ∧
    forkC6.height_at 0 ≠ some (forkC6.height_ + 0 + 1) := by
  constructor <;> decide

/-- C6 amended. height_at returns parent + i + 1 for every index whose
resulting height fits in size_t (otherwise the checked addition throws),
and for every height h strictly above the parent with h - parent - 1
inside the fork, index_of returns an index k with k + 1 + parent = h, so
the two functions are mutually inverse on in-range heights and indexes. -/
theorem C6_height_index_inverse (f : Fork) :
    (∀ i, f.height_ + i + 1 ≤ max_size_t →
      f.height_at i = some (f.height_ + i + 1)) ∧
    (∀ h, f.height_ < h → h - f.height_ - 1 < f.size →
      ∃ k, f.index_of h = some k ∧ k + 1 + f.height_ = h) := by
  constructor
  · intro i hle
    unfold Fork.height_at safe_add
    rw [if_pos (by omega : f.height_ + i ≤ max_size_t), Option.some_bind,
      if_pos (by omega : f.height_ + i + 1 ≤ max_size_t)]
  · intro h hh _
    exact ⟨h - f.height_ - 1, index_of_eq f h hh, by omega⟩

/-- Witness for the amended C6 at parent height 42. -/
theorem C6_height_index_inverse_witness :
    forkW6.height_at 0 = some (forkW6.height_ + 0 + 1) ∧
    ∃ k, forkW6.index_of 43 = some k ∧ k + 1 + forkW6.height_ = 43 :=
  ⟨(C6_height_index_inverse forkW6).1 0 (by decide),
   (C6_height_index_inverse forkW6).2 43 (by decide) (by decide)⟩

/-- C4 counterexample. The non-null outpoint opC4 matches the coinbase
transaction of forkC4 (block index 0, position 0, whose blockchain height
is 1), so the claim requires height to be set to 1; but because the
matched output is the invalid output, populate_prevout returns early and
leaves the height at not_specified, so its result is not the one the
claim demands. -/
theorem C4_counterexample :
    opC4.is_null = false ∧
    find_prevout forkC4 opC4 = some (0, 0, txCb) ∧
    forkC4.height_at 0 = some 1 ∧
    populate_prevout forkC4 opC4 = some ⟨invalid_output, not_specified⟩ ∧
    populate_prevout forkC4 opC4
      ≠ some ⟨txCb.outputs[opC4.index]?.getD invalid_output, 1⟩ := by
  refine ⟨by decide, by decide, by decide, by decide, by decide⟩

/-- C4 amended. For a null outpoint the slots stay at their initial
values. For a non-null outpoint: when no fork transaction matches, the
slots stay initial; when the first match under the scan order (blocks
from the highest index down to 0, transactions within a block in order)
is transaction tx at position k of block i, then, provided the block
height computation does not overflow, the result is: if the matched
output is valid, cache is that output and height is the block's
blockchain height iff k = 0 (coinbase), not_specified otherwise; if the
matched output is invalid, both slots stay at their initial values. -/
theorem C4_populate_prevout (f : Fork) (op : OutPoint) :
    (op.is_null = true →
      populate_prevout f op = some ⟨invalid_output, not_specified⟩) ∧
    (op.is_null = false →
      ((∀ j bj, j < f.size → f.blocks_[j]? = some bj →
          bj.transactions.any (tx_match op) = false) →
        populate_prevout f op = some ⟨invalid_output, not_specified⟩) ∧
      (∀ i b k tx hgt, i < f.size → f.blocks_[i]? = some b →
          b.transactions[k]? = some tx → tx_match op tx = true →
          (∀ q tq, q < k → b.transactions[q]? = some tq →
            tx_match op tq = false) →
          (∀ j bj, i < j → j < f.size → f.blocks_[j]? = some bj →
            bj.transactions.any (tx_match op) = false) →
          f.height_at i = some hgt →
          populate_prevout f op =
            some (if (tx.outputs[op.index]?.getD invalid_output).is_valid
              then ⟨tx.outputs[op.index]?.getD invalid_output,
                    if k = 0 then hgt else not_specified⟩
              else ⟨invalid_output, not_specified⟩))) := by
  refine ⟨fun hn => by simp [populate_prevout, hn], fun hnull => ⟨?_, ?_⟩⟩
  · intro hall
    have hfp : find_prevout f op = none := scanDown_none op f.blocks_ f.size hall
    simp [populate_prevout, hnull, hfp]
  · intro i b k tx hgt hi hgi hgk hm hfirst hhigher hha
    have hfp : find_prevout f op = some (i, k, tx) :=
      scanDown_found op f.blocks_ f.size i b k tx hi hgi hgk hm hfirst hhigher
    simp only [populate_prevout, hnull, Bool.false_eq_true, if_false, hfp, hha]
    split <;> rfl

/-- Witness for the amended C4: a one-block fork whose coinbase has a
valid output of value 5, resolved with height 1. -/
theorem C4_populate_prevout_witness :
    populate_prevout forkW4 opW4 = some ⟨⟨5⟩, 1⟩ := by
  have h := ((C4_populate_prevout forkW4 opW4).2 (by decide)).2 0 blkW4 0 txCbV 1
    (by decide) (by decide) (by decide) (by decide)
    (fun q tq hq _ => absurd hq (by omega))
    (fun j bj h1 h2 _ => absurd (show j < 1 from h2) (by omega))
    (by decide)
  rw [h]
  decide
